import Mathlib

/-!
Verification of the embedding-and-retrieval engine of the air-quality
chatbot repository, a shallow embedding of `src/vector_store.py`.

Modelling conventions:

* Text is `List Char`; Python's `str` methods are modelled on ASCII
  characters (all concrete inputs below are ASCII).
* Exact arithmetic replaces floating point.  Every float produced by the
  program is of the form `c / Real.sqrt d` for integers `c, d` computed
  from token counts, so a vector is represented by the pair
  `Vec c d`, denoting the real vector `c / √d`, and a similarity score by
  `Score a b`, denoting the real number `a / Real.sqrt b`.  Comparisons of
  such numbers are performed exactly on the integer representations
  (`Score.leB`), and `Score.leB_iff_real` below proves the encoding
  correct against the real semantics.
* The MD5-based token hash of `_generate_simple_embeddings` is an opaque
  deterministic function `String → [0, 384)`; the development is
  parameterized by an arbitrary such function `h`, which covers the
  actual one.  Concrete evaluations instantiate `h` with `hABC`.
* `np.random.rand(n, 384)` inside `_get_existing_embeddings` is modelled
  by an oracle `rand : ℕ → Vec` giving the rows the library produced;
  theorems quantify over the oracle, concrete runs instantiate it.
* FAISS `IndexFlatIP` with `nq = 1` is exact inner-product search over
  all stored rows: the top `k` entries by descending score, equal scores
  ranked by insertion order (the first `k` rows seen are the ones a
  bounded min-heap with strict replacement retains).
* Python exceptions are modelled with `Except`/error codes, and a raise
  that happens after a partial mutation of `self` returns the mutated
  state alongside the error code.
-/

set_option maxRecDepth 40000

/-- Word characters of the regex `\b\w+\b` (ASCII range). -/
def isWordChar (c : Char) : Bool := c.isAlpha || c.isDigit || c = '_'

/-- Maximal runs of word characters, in order: `re.findall(r'\b\w+\b', ·)`. -/
def tokenizeAux : List Char → List (List Char)
  | [] => []
  | c :: cs =>
    if isWordChar c then
      match cs with
      | [] => [[c]]
      | c2 :: _ =>
        if isWordChar c2 then
          match tokenizeAux cs with
          | [] => [[c]]
          | w :: ws => (c :: w) :: ws
        else [c] :: tokenizeAux cs
    else tokenizeAux cs

/-- Tokenization `re.findall(r'\b\w+\b', text.lower())`. -/
def tokenize (t : List Char) : List (List Char) :=
  tokenizeAux (t.map Char.toLower)

/-- Dimension `self.dimension = 384`. -/
def dim : ℕ := 384

/-- The token-count histogram of `_generate_simple_embeddings`: start from
`np.zeros(self.dimension)` and do `embedding[pos] += 1` at `pos = h word`
for every token. -/
def counts (h : List Char → Fin dim) (t : List Char) : List ℤ :=
  (tokenize t).foldl (fun v w => v.set (h w) (v.getD (h w) 0 + 1)) (List.replicate dim 0)

/-- Squared L2 norm of a coefficient vector (exact). -/
def normSq (v : List ℤ) : ℤ := (v.map (fun x => x ^ 2)).sum

/-- Dot product of two coefficient vectors (exact). -/
def dotZ (u v : List ℤ) : ℤ := (List.zipWith (fun a b => a * b) u v).sum

/-- A stored vector: `Vec c d` denotes the real vector `c / √d`.
`_generate_simple_embeddings` divides the histogram by its norm when the
norm is positive, which is `Vec c (normSq c)`; otherwise the histogram is
left alone (all zeros), which is `Vec c 1`.  Rows of `np.random.rand` are
arbitrary rational rows `c / √d`. -/
structure Vec where
  c : List ℤ
  d : ℤ
deriving DecidableEq

/-- The embedding of one text, after the `norm > 0` normalization guard of
`_generate_simple_embeddings` (and the `faiss.normalize_L2` call of
`add_documents`, which re-normalizes an already unit row and leaves a zero
row unchanged). -/
def embedVec (h : List Char → Fin dim) (t : List Char) : Vec :=
  let cv := counts h t
  ⟨cv, if 0 < normSq cv then normSq cv else 1⟩

/-- A similarity score: `Score a b` denotes the real number `a / √b`.
The inner product of `Vec c₁ d₁` and `Vec c₂ d₂` is
`dotZ c₁ c₂ / √(d₁ * d₂)`. -/
structure Score where
  a : ℤ
  b : ℤ
deriving DecidableEq

/-- FAISS inner-product score of a query row against a stored row. -/
def scoreOf (q v : Vec) : Score := ⟨dotZ q.c v.c, q.d * v.d⟩

/-- Exact comparison `a / √b ≤ a' / √b'` of two scores (for positive
`b`, `b'`), by cases on signs and cross-multiplied squares. -/
def Score.leB (s t : Score) : Bool :=
  if 0 ≤ s.a then decide (0 ≤ t.a) && decide (s.a ^ 2 * t.b ≤ t.a ^ 2 * s.b)
  else decide (0 ≤ t.a) || decide (t.a ^ 2 * s.b ≤ s.a ^ 2 * t.b)

/-- Exact equality of the real values of two scores (for positive `b`). -/
def Score.valEqB (s t : Score) : Bool := Score.leB s t && Score.leB t s

/-- The score's real value is exactly `1.0`: `a / √b = 1 ↔ 0 < a ∧ a² = b`. -/
def Score.isOneB (s : Score) : Bool := decide (0 < s.a) && decide (s.a ^ 2 = s.b)

/-- A metadata value: the concrete program stores strings and the integer
`chunk_index`. -/
inductive MVal where
  | s (v : String)
  | n (v : ℤ)
deriving DecidableEq

/-- A Python dict used as metadata: association list in insertion order,
keys unique. -/
abbrev Metadata := List (String × MVal)

/-- Lookup `metadata[key]` / `key in metadata`. -/
def mlookup : Metadata → String → Option MVal
  | [], _ => none
  | (k', v') :: rest, k => if k' = k then some v' else mlookup rest k

/-- Dict assignment `metadata[key] = value`: update in place if the key
exists, else append (Python insertion-order semantics). -/
def mset : Metadata → String → MVal → Metadata
  | [], k, v => [(k, v)]
  | (k', v') :: rest, k, v => if k' = k then (k, v) :: rest else (k', v') :: mset rest k v

/-- Model of `_matches_filter`: every filter key must be present in the metadata
with an equal value. -/
def matches_filter (metadata filter_metadata : Metadata) : Bool :=
  filter_metadata.all (fun kv => decide (mlookup metadata kv.1 = some kv.2))

/-- An input document: `doc.get('content', '')` and
`doc.get('metadata', {})` (a missing key is the default value). -/
structure Doc where
  content : List Char
  metadata : Metadata
deriving DecidableEq

/-- Python `range(0, stop, step)` for `step > 0`. -/
def pyRange (stop step : ℕ) : List ℕ :=
  (List.range ((stop + step - 1) / step)).map (fun j => j * step)

/-- Model of `_split_document`: documents of length ≤ 1000 pass through unchanged;
longer content is cut at every window start in `range(0, len, 800)` into
`content[i : i + 1000]`, each chunk getting a copy of the parent metadata
plus `chunk_index = i // 800`. -/
def split_document (doc : Doc) : List Doc :=
  if doc.content.length ≤ 1000 then [doc]
  else
    (pyRange doc.content.length 800).map (fun i =>
      ⟨(doc.content.drop i).take 1000, mset doc.metadata "chunk_index" (.n (Int.ofNat (i / 800)))⟩)

/-- The chunk texts a batch of documents contributes in `add_documents`. -/
def batchTexts (docs : List Doc) : List (List Char) :=
  (docs.flatMap split_document).map (fun c => c.content)

/-- The chunk metadatas a batch of documents contributes in `add_documents`. -/
def batchMetas (docs : List Doc) : List Metadata :=
  (docs.flatMap split_document).map (fun c => c.metadata)

/-- The store state: `index` is `None` before `initialize` creates the
FAISS index, otherwise the ordered rows of the index; `documents` and
`metadata` are the parallel Python lists. -/
structure Store where
  index : Option (List Vec)
  documents : List (List Char)
  metadata : List Metadata
deriving DecidableEq

/-- The JSON snapshot `_save_data` writes: documents and metadata only
(the timestamp carries no retrieval state and is omitted). -/
structure SaveFile where
  documents : List (List Char)
  metadata : List Metadata
deriving DecidableEq

/-- Model of `_save_data`: snapshot the texts and metadata (vectors are not
persisted). -/
def save_data (s : Store) : SaveFile := ⟨s.documents, s.metadata⟩

/-- Model of `_load_existing_data`: restore texts and metadata from the snapshot if
one exists, re-embed every text and append the embeddings to the (empty)
index. -/
def load_existing_data (h : List Char → Fin dim) (file : Option SaveFile) (s : Store) : Store :=
  match file with
  | none => s
  | some f =>
    let s' : Store := { s with documents := f.documents, metadata := f.metadata }
    if f.documents = [] then s'
    else { s' with index := some (s.index.getD [] ++ f.documents.map (embedVec h)) }

/-- Model of `initialize`: create an empty index, then load persisted data. -/
def initStore (h : List Char → Fin dim) (file : Option SaveFile) : Store :=
  load_existing_data h file ⟨some [], [], []⟩

/-- Failure-injection points of `add_documents` named by the spec:
the embedding step (line 60) or the index append (lines 70/75). -/
inductive AddFail where
  | embed
  | append
deriving DecidableEq

/-- Errors `add_documents` can raise: an injected failure, the
`IndexError` `faiss.normalize_L2` raises on an empty batch's 1-D empty
array, or the `AttributeError` from `self.index.ntotal` when the index is
still `None`. -/
inductive AddErr where
  | injected (f : AddFail)
  | emptyBatch
  | attrNone
deriving DecidableEq

/-- Model of `_get_existing_embeddings`: NOT the stored rows - a fresh
`np.random.rand(ntotal, dimension)` matrix, modelled by the oracle. -/
def get_existing_embeddings (rand : ℕ → Vec) (s : Store) : List Vec :=
  match s.index with
  | none => []
  | some vecs => if vecs.length = 0 then [] else (List.range vecs.length).map rand

/-- Model of `add_documents`, following the source line by line: chunk, embed
(possible failure), normalize (raises on an empty batch), read
`self.index.ntotal` (raises if uninitialized), append or rebuild the
index (possible failure; the rebuild path has already replaced
`self.index` with a fresh empty one when the append raises), then extend
`documents` and `metadata` and save.  Returns the state the `self` object
is left in, plus the raised error if any. -/
def add_documents (h : List Char → Fin dim) (rand : ℕ → Vec) (fail : Option AddFail)
    (s : Store) (docs : List Doc) : Store × Option AddErr :=
  let texts := batchTexts docs
  let metadatas := batchMetas docs
  if fail = some .embed then (s, some (.injected .embed))
  else
    let embs := texts.map (embedVec h)
    if texts = [] then (s, some .emptyBatch)
    else
      match s.index with
      | none => (s, some .attrNone)
      | some vecs =>
        if vecs.length = 0 then
          if fail = some .append then (s, some (.injected .append))
          else ({ index := some embs, documents := s.documents ++ texts,
                  metadata := s.metadata ++ metadatas }, none)
        else
          let allEmbs := get_existing_embeddings rand s ++ embs
          if fail = some .append then ({ s with index := some [] }, some (.injected .append))
          else ({ index := some allEmbs, documents := s.documents ++ texts,
                  metadata := s.metadata ++ metadatas }, none)

/-- One element of the list `similarity_search` returns. -/
structure SearchResult where
  content : List Char
  score : Score
  metadata : Metadata
deriving DecidableEq

/-- Scores of the query row against every indexed row, in insertion
order, paired with the row positions. -/
def scoredList (qv : Vec) (vecs : List Vec) : List (ℕ × Score) :=
  (List.range vecs.length).map (fun i => (i, scoreOf qv (vecs.getD i ⟨[], 1⟩)))

/-- Descending-score ranking used by the index search; on equal scores
the earlier-inserted row wins. -/
def rankRel (x y : ℕ × Score) : Prop := Score.leB y.2 x.2 = true

instance : DecidableRel rankRel := fun _ _ => decEq _ _

/-- Model of `faiss.IndexFlatIP.search` with one query: `k = 0` violates the
wrapper's `assert k > 0`; otherwise the `k` best (score, position) pairs,
descending, stable on ties. -/
def faissSearch (vecs : List Vec) (qv : Vec) (k : ℕ) : Except Unit (List (ℕ × Score)) :=
  if k = 0 then .error ()
  else .ok ((List.insertionSort rankRel (scoredList qv vecs)).take k)

/-- One formatted search result (source lines 108-112): content and
metadata are looked up at the row position, metadata guarded by
`idx < len(self.metadata)`. -/
def fmtResult (s : Store) (p : ℕ × Score) : SearchResult :=
  { content := s.documents.getD p.1 [], score := p.2,
    metadata := if p.1 < s.metadata.length then s.metadata.getD p.1 [] else [] }

/-- The result loop (source lines 105-119) without the filter step: keep
the candidates whose position passes `idx < len(self.documents)`. -/
def formattedResults (s : Store) (top : List (ℕ × Score)) : List SearchResult :=
  top.filterMap (fun p => if p.1 < s.documents.length then some (fmtResult s p) else none)

/-- Truthiness test `if filter_metadata:` (source line 115): Python truthiness, so both
`None` and the empty dict skip filtering. -/
def applyTruthyFilter (filt : Option Metadata) (l : List SearchResult) : List SearchResult :=
  match filt with
  | some (kv :: rest) => l.filter (fun r => matches_filter r.metadata (kv :: rest))
  | _ => l

/-- The body of `similarity_search` inside its `try` block. -/
def searchBody (h : List Char → Fin dim) (s : Store) (q : List Char) (k : ℕ)
    (filt : Option Metadata) : Except Unit (List SearchResult) :=
  match s.index with
  | none => .ok []
  | some vecs =>
    if vecs.length = 0 then .ok []
    else
      match faissSearch vecs (embedVec h q) (min k vecs.length) with
      | .error e => .error e
      | .ok top => .ok ((applyTruthyFilter filt (formattedResults s top)).take k)

/-- Model of `similarity_search`: the `try`/`except` wrapper returns the body's
value, or `[]` if anything inside raised. -/
def similarity_search (h : List Char → Fin dim) (s : Store) (q : List Char) (k : ℕ)
    (filt : Option Metadata) : List SearchResult :=
  match searchBody h s q k filt with
  | .ok r => r
  | .error _ => []

/-- A concrete stand-in for the MD5 token hash, used to evaluate the
model on concrete inputs (the development's theorems hold for every
hash). -/
def hABC (w : List Char) : Fin dim :=
  ⟨(w.foldl (fun a c => a + c.toNat) 0) % dim, Nat.mod_lt _ (by norm_num [dim])⟩

/-- An oracle for `np.random.rand` whose rows are all zero (a possible
draw). -/
def rand0 : ℕ → Vec := fun _ => ⟨List.replicate dim 0, 1⟩

/-- Concrete one-character documents used in the concrete runs. -/
def docA : Doc := ⟨"a".data, []⟩

/-- Second concrete document. -/
def docB : Doc := ⟨"b".data, []⟩

/-- The store after `initialize()` (no snapshot) and one
`add_documents([{'content': 'a'}])`. -/
def storeA : Store := (add_documents hABC rand0 none (initStore hABC none) [docA]).1

/-- State of `storeA` after a second call `add_documents([{'content': 'b'}])`:
the rebuild path replaces the stored row for `'a'` with the
`np.random.rand` row (here the all-zero draw). -/
def storeAB : Store := (add_documents hABC rand0 none storeA [docB]).1

/-- Modelled from the spec: the spec's claimed chunk count,
`ceil((L - 1000) / 800) + 1` for `L > 1000`, else `1`. -/
def specChunkCount (L : ℕ) : ℕ :=
  if L ≤ 1000 then 1 else (L - 1000 + 799) / 800 + 1

/-- The metadata filter used in the concrete runs. -/
def fA : Metadata := [("source", .s "A")]

/-- A store with one entry tagged `source = B` whose text is exactly the
query and one entry tagged `source = A` whose text merely contains the
query token, built by a single `add_documents` batch. -/
def store3 : Store :=
  (add_documents hABC rand0 none (initStore hABC none)
    [⟨"q".data, [("source", .s "B")]⟩, ⟨"q z".data, fA⟩]).1

/-- A store holding the single tokenless chunk `'!'`. -/
def storeBang : Store :=
  (add_documents hABC rand0 none (initStore hABC none) [⟨"!".data, []⟩]).1


/-! ### Arithmetic facts about the embedding -/

/-! ### Correctness of the exact score encoding -/

/-- Correctness of `Score.leB` against the real semantics: for positive
denominators, the integer comparison decides exactly
`a / √b ≤ a' / √b'`. -/
theorem Score.leB_iff_real (s t : Score) (hb : 0 < s.b) (hb' : 0 < t.b) :
    Score.leB s t = true ↔
      (s.a : ℝ) / Real.sqrt (s.b : ℝ) ≤ (t.a : ℝ) / Real.sqrt (t.b : ℝ) := by
  have hsbR : (0 : ℝ) < (s.b : ℝ) := by exact_mod_cast hb
  have htbR : (0 : ℝ) < (t.b : ℝ) := by exact_mod_cast hb'
  have hsb : (0 : ℝ) < Real.sqrt (s.b : ℝ) := Real.sqrt_pos.mpr hsbR
  have htb : (0 : ℝ) < Real.sqrt (t.b : ℝ) := Real.sqrt_pos.mpr htbR
  rw [div_le_div_iff hsb htb]
  unfold Score.leB
  by_cases hs : 0 ≤ s.a <;> by_cases ht : 0 ≤ t.a
  · have hsaR : (0 : ℝ) ≤ (s.a : ℝ) := by exact_mod_cast hs
    have htaR : (0 : ℝ) ≤ (t.a : ℝ) := by exact_mod_cast ht
    have h1 : (s.a : ℝ) * Real.sqrt t.b * ((s.a : ℝ) * Real.sqrt t.b) =
        (s.a : ℝ) ^ 2 * t.b := by
      rw [show (s.a : ℝ) * Real.sqrt t.b * ((s.a : ℝ) * Real.sqrt t.b) =
        (s.a : ℝ) ^ 2 * (Real.sqrt t.b * Real.sqrt t.b) from by ring,
        Real.mul_self_sqrt htbR.le]
    have h2 : (t.a : ℝ) * Real.sqrt s.b * ((t.a : ℝ) * Real.sqrt s.b) =
        (t.a : ℝ) ^ 2 * s.b := by
      rw [show (t.a : ℝ) * Real.sqrt s.b * ((t.a : ℝ) * Real.sqrt s.b) =
        (t.a : ℝ) ^ 2 * (Real.sqrt s.b * Real.sqrt s.b) from by ring,
        Real.mul_self_sqrt hsbR.le]
    rw [mul_self_le_mul_self_iff (mul_nonneg hsaR htb.le) (mul_nonneg htaR hsb.le), h1, h2,
      if_pos hs]
    simp only [ht, decide_eq_true_eq, Bool.and_eq_true]
    constructor
    · intro hcmp
      exact_mod_cast hcmp.2
    · intro hcmp
      exact ⟨by simp [ht], by exact_mod_cast hcmp⟩
  · have htaR : (t.a : ℝ) < 0 := by exact_mod_cast not_le.mp ht
    have hy : (t.a : ℝ) * Real.sqrt s.b < 0 := mul_neg_of_neg_of_pos htaR hsb
    have hx : (0 : ℝ) ≤ (s.a : ℝ) * Real.sqrt t.b :=
      mul_nonneg (by exact_mod_cast hs) htb.le
    rw [if_pos hs]
    constructor
    · intro hfalse
      simp [ht] at hfalse
    · intro hcmp
      exfalso
      linarith
  · have hsaR : (s.a : ℝ) < 0 := by exact_mod_cast not_le.mp hs
    have hx : (s.a : ℝ) * Real.sqrt t.b < 0 := mul_neg_of_neg_of_pos hsaR htb
    have hy : (0 : ℝ) ≤ (t.a : ℝ) * Real.sqrt s.b :=
      mul_nonneg (by exact_mod_cast ht) hsb.le
    constructor
    · intro _
      linarith
    · intro _
      simp [Score.leB, if_neg hs, ht]
  · have hsaR : (s.a : ℝ) < 0 := by exact_mod_cast not_le.mp hs
    have htaR : (t.a : ℝ) < 0 := by exact_mod_cast not_le.mp ht
    have hswap : ((s.a : ℝ) * Real.sqrt t.b ≤ (t.a : ℝ) * Real.sqrt s.b) ↔
        (-((t.a : ℝ) * Real.sqrt s.b) ≤ -((s.a : ℝ) * Real.sqrt t.b)) :=
      ⟨fun hc => by linarith, fun hc => by linarith⟩
    have h1 : -((t.a : ℝ) * Real.sqrt s.b) * -((t.a : ℝ) * Real.sqrt s.b) =
        (t.a : ℝ) ^ 2 * s.b := by
      rw [show -((t.a : ℝ) * Real.sqrt s.b) * -((t.a : ℝ) * Real.sqrt s.b) =
        (t.a : ℝ) ^ 2 * (Real.sqrt s.b * Real.sqrt s.b) from by ring,
        Real.mul_self_sqrt hsbR.le]
    have h2 : -((s.a : ℝ) * Real.sqrt t.b) * -((s.a : ℝ) * Real.sqrt t.b) =
        (s.a : ℝ) ^ 2 * t.b := by
      rw [show -((s.a : ℝ) * Real.sqrt t.b) * -((s.a : ℝ) * Real.sqrt t.b) =
        (s.a : ℝ) ^ 2 * (Real.sqrt t.b * Real.sqrt t.b) from by ring,
        Real.mul_self_sqrt htbR.le]
    rw [hswap, mul_self_le_mul_self_iff
      (by nlinarith [mul_neg_of_neg_of_pos htaR hsb] : (0:ℝ) ≤ -((t.a : ℝ) * Real.sqrt s.b))
      (by nlinarith [mul_neg_of_neg_of_pos hsaR htb] : (0:ℝ) ≤ -((s.a : ℝ) * Real.sqrt t.b)),
      h1, h2, if_neg hs]
    simp only [ht, decide_eq_true_eq, Bool.or_eq_true]
    constructor
    · intro hcmp
      rcases hcmp with hcmp | hcmp
      · exact hcmp.elim
      · exact_mod_cast hcmp
    · intro hcmp
      exact Or.inr (by exact_mod_cast hcmp)


theorem sum_nonneg_of_mem_nonneg {l : List ℤ} (h : ∀ x ∈ l, 0 ≤ x) : 0 ≤ l.sum := by
  induction l with
  | nil => simp
  | cons a l ih =>
    simp only [List.sum_cons]
    have ha := h a (List.mem_cons_self a l)
    have := ih (fun x hx => h x (List.mem_cons_of_mem a hx))
    omega

theorem all_zero_of_sum_eq_zero {l : List ℤ} (h : ∀ x ∈ l, 0 ≤ x) (hs : l.sum = 0) :
    ∀ x ∈ l, x = 0 := by
  induction l with
  | nil => simp
  | cons a l ih =>
    simp only [List.sum_cons] at hs
    have ha := h a (List.mem_cons_self a l)
    have hl : 0 ≤ l.sum := sum_nonneg_of_mem_nonneg (fun x hx => h x (List.mem_cons_of_mem a hx))
    intro x hx
    rcases List.mem_cons.mp hx with rfl | hx
    · omega
    · exact ih (fun y hy => h y (List.mem_cons_of_mem a hy)) (by omega) x hx

theorem normSq_nonneg (v : List ℤ) : 0 ≤ normSq v :=
  sum_nonneg_of_mem_nonneg (by
    intro x hx
    obtain ⟨y, _, rfl⟩ := List.mem_map.mp hx
    positivity)

theorem normSq_replicate_zero (n : ℕ) : normSq (List.replicate n 0) = 0 := by
  induction n with
  | zero => rfl
  | succ n ih => simpa [normSq, List.replicate_succ] using ih

theorem sum_set_int (l : List ℤ) (p : ℕ) (x : ℤ) (hp : p < l.length) :
    (l.set p x).sum = l.sum - l.get ⟨p, hp⟩ + x := by
  induction l generalizing p with
  | nil => simp at hp
  | cons a l ih =>
    cases p with
    | zero => simp [List.set]; ring
    | succ p =>
      have hp' : p < l.length := by simpa using hp
      simp [List.set, List.sum_cons, ih p hp']
      ring

theorem counts_foldl_length (h : List Char → Fin dim) (ws : List (List Char)) (v : List ℤ)
    (hv : v.length = dim) :
    (ws.foldl (fun v w => v.set (h w) (v.getD (h w) 0 + 1)) v).length = dim := by
  induction ws generalizing v with
  | nil => exact hv
  | cons w ws ih => exact ih _ (by simpa using hv)

theorem counts_length (h : List Char → Fin dim) (t : List Char) : (counts h t).length = dim :=
  counts_foldl_length h _ _ (List.length_replicate dim 0)

theorem counts_foldl_sum (h : List Char → Fin dim) (ws : List (List Char)) (v : List ℤ)
    (hv : v.length = dim) :
    (ws.foldl (fun v w => v.set (h w) (v.getD (h w) 0 + 1)) v).sum = v.sum + ws.length := by
  induction ws generalizing v with
  | nil => simp
  | cons w ws ih =>
    have hlt : ((h w : Fin dim) : ℕ) < v.length := by rw [hv]; exact (h w).isLt
    rw [List.foldl_cons, ih _ (by simpa using hv)]
    rw [sum_set_int v (h w) _ hlt, List.getD_eq_get v 0 hlt]
    push_cast [List.length_cons]
    ring

theorem counts_sum (h : List Char → Fin dim) (t : List Char) :
    (counts h t).sum = (tokenize t).length := by
  have := counts_foldl_sum h (tokenize t) (List.replicate dim 0) (List.length_replicate dim 0)
  simpa [counts, List.sum_replicate] using this

theorem counts_of_tokenize_nil (h : List Char → Fin dim) (t : List Char)
    (ht : tokenize t = []) : counts h t = List.replicate dim 0 := by
  simp [counts, ht]

theorem normSq_counts_pos (h : List Char → Fin dim) (t : List Char) (ht : tokenize t ≠ []) :
    0 < normSq (counts h t) := by
  rcases lt_or_eq_of_le (normSq_nonneg (counts h t)) with hpos | heq
  · exact hpos
  · exfalso
    have hzero : ∀ x ∈ counts h t, x = 0 := by
      have hsq : ∀ y ∈ (counts h t).map (fun x => x ^ 2), y = 0 :=
        all_zero_of_sum_eq_zero
          (by
            intro y hy
            obtain ⟨x, _, rfl⟩ := List.mem_map.mp hy
            positivity)
          heq.symm
      intro x hx
      have := hsq (x ^ 2) (List.mem_map.mpr ⟨x, hx, rfl⟩)
      exact pow_eq_zero_iff (n := 2) (by norm_num) |>.mp this
    have hsum0 : (counts h t).sum = 0 := List.sum_eq_zero hzero
    rw [counts_sum] at hsum0
    have : (tokenize t).length = 0 := by exact_mod_cast hsum0
    exact ht (List.length_eq_zero.mp this)

theorem zipWith_self_sq (v : List ℤ) :
    List.zipWith (fun a b => a * b) v v = v.map (fun x => x ^ 2) := by
  induction v with
  | nil => rfl
  | cons a v ih =>
    simp only [List.zipWith_cons_cons, List.map_cons, ih, List.cons.injEq, and_true]
    ring

theorem dotZ_self (v : List ℤ) : dotZ v v = normSq v := by
  unfold dotZ normSq
  rw [zipWith_self_sq]

theorem dotZ_replicate_zero (u : List ℤ) (n : ℕ) : dotZ u (List.replicate n 0) = 0 := by
  induction u generalizing n with
  | nil => simp [dotZ]
  | cons a u ih =>
    cases n with
    | zero => simp [dotZ]
    | succ n =>
      simp only [List.replicate_succ, dotZ, List.zipWith_cons_cons, List.sum_cons]
      have := ih n
      simp only [dotZ] at this
      simp [this]

theorem cauchy_schwarz_list (u v : List ℤ) : (dotZ u v) ^ 2 ≤ normSq u * normSq v := by
  induction u generalizing v with
  | nil => simp [dotZ, normSq, mul_nonneg (le_refl (0:ℤ)) (normSq_nonneg v)]
  | cons a u ih =>
    cases v with
    | nil =>
      simp only [dotZ, List.zipWith_nil_right, List.sum_nil, normSq, List.map_nil, mul_zero]
      norm_num
    | cons b v =>
      have hS := ih v
      have hNU := normSq_nonneg u
      have hNV := normSq_nonneg v
      simp only [dotZ, List.zipWith_cons_cons, List.sum_cons, normSq, List.map_cons] at *
      set S := (List.zipWith (fun a b => a * b) u v).sum with hSdef
      set NU := (u.map (fun x => x ^ 2)).sum with hNUdef
      set NV := (v.map (fun x => x ^ 2)).sum with hNVdef
      have key : (2 * (a * b) * S) ^ 2 ≤ (a ^ 2 * NV + b ^ 2 * NU) ^ 2 := by
        nlinarith [sq_nonneg (a ^ 2 * NV - b ^ 2 * NU),
          mul_nonneg (mul_nonneg (sq_nonneg a) (sq_nonneg b)) (sub_nonneg.mpr hS)]
      have pos : 0 ≤ a ^ 2 * NV + b ^ 2 * NU :=
        add_nonneg (mul_nonneg (sq_nonneg a) hNV) (mul_nonneg (sq_nonneg b) hNU)
      have habs : 2 * (a * b) * S ≤ a ^ 2 * NV + b ^ 2 * NU := by
        nlinarith [key, pos]
      nlinarith [habs, hS]

/-! ### The chunker -/

theorem pyRange_length (stop step : ℕ) :
    (pyRange stop step).length = (stop + step - 1) / step := by
  simp [pyRange]

theorem split_document_eq_map (d : Doc) (hL : 1000 < d.content.length) :
    split_document d = (pyRange d.content.length 800).map (fun i =>
      ⟨(d.content.drop i).take 1000, mset d.metadata "chunk_index" (.n (Int.ofNat (i / 800)))⟩) := by
  simp only [split_document, if_neg (by omega : ¬ d.content.length ≤ 1000)]

theorem split_document_length (d : Doc) (hL : 1000 < d.content.length) :
    (split_document d).length = (d.content.length + 799) / 800 := by
  rw [split_document_eq_map d hL]
  simp [pyRange_length]

theorem pyRange_get (stop step i : ℕ) (hi : i < (pyRange stop step).length) :
    (pyRange stop step).get ⟨i, hi⟩ = i * step := by
  simp [pyRange]

theorem split_document_get (d : Doc) (hL : 1000 < d.content.length) (i : ℕ)
    (hi : i < (split_document d).length) :
    (split_document d).get ⟨i, hi⟩ =
      ⟨(d.content.drop (800 * i)).take 1000,
       mset d.metadata "chunk_index" (.n (Int.ofNat i))⟩ := by
  simp only [List.get_eq_getElem, split_document_eq_map d hL, List.getElem_map, pyRange,
    List.getElem_range]
  congr 1
  · rw [Nat.mul_comm]
  · rw [Nat.mul_div_cancel i (by norm_num : (0:ℕ) < 800)]

theorem split_document_content_ne_nil (d : Doc) (hd : d.content ≠ [])
    (c : Doc) (hc : c ∈ split_document d) : c.content ≠ [] := by
  by_cases hL : d.content.length ≤ 1000
  · simp only [split_document, if_pos hL, List.mem_singleton] at hc
    subst hc
    exact hd
  · push_neg at hL
    rw [split_document_eq_map d hL] at hc
    obtain ⟨i, hi, rfl⟩ := List.mem_map.mp hc
    simp only [pyRange, List.mem_map, List.mem_range] at hi
    obtain ⟨j, hj, rfl⟩ := hi
    have hlt : j * 800 < d.content.length := by omega
    intro hnil
    have := congrArg List.length hnil
    simp only [List.length_take, List.length_drop, List.length_nil] at this
    omega

/-- Claim C4 (amended): a document with more than 1000 characters of content
splits into exactly `ceil(L / 800)` chunks (one window start at every
multiple of 800 below `L`, i.e. `(L + 799) / 800` of them - not the
spec's `ceil((L - 1000) / 800) + 1`); chunk `i` has content
`content[800*i : 800*i + 1000]` and a copy of the parent metadata with
`chunk_index = i`; a document with at most 1000 characters is returned
unchanged as the single chunk; no chunk ever has empty content provided
the document does not. -/
theorem C4_chunk_windows (d : Doc) :
    (d.content.length ≤ 1000 → split_document d = [d]) ∧
    (1000 < d.content.length →
      (split_document d).length = (d.content.length + 799) / 800 ∧
      (∀ i, ∀ hi : i < (split_document d).length,
        (split_document d).get ⟨i, hi⟩ =
          ⟨(d.content.drop (800 * i)).take 1000,
           mset d.metadata "chunk_index" (.n (Int.ofNat i))⟩)) ∧
    (d.content ≠ [] → ∀ c ∈ split_document d, c.content ≠ []) := by
  refine ⟨fun hL => ?_, fun hL => ⟨split_document_length d hL, split_document_get d hL⟩,
    split_document_content_ne_nil d⟩
  simp only [split_document, if_pos hL]

/-- Claim C4 counterexample: a document of content length 1601 is split into
3 chunks (window starts 0, 800, 1600), while the spec's formula
`ceil((L - 1000) / 800) + 1` predicts exactly 2. -/
theorem C4_counterexample :
    (split_document ⟨List.replicate 1601 'a', []⟩).length = 3 ∧
    specChunkCount 1601 = 2 := by
  constructor
  · rw [split_document_length ⟨List.replicate 1601 'a', []⟩ (by simp)]
    simp
  · norm_num [specChunkCount]

/-- Witness for `C4_chunk_windows` at a concrete document of length 1601:
its third chunk is `content[1600:1601]` with `chunk_index = 2`. -/
theorem C4_chunk_windows_witness :
    (split_document ⟨List.replicate 1601 'a', []⟩).length = (1601 + 799) / 800 ∧
    ∀ hi : 2 < (split_document ⟨List.replicate 1601 'a', []⟩).length,
      (split_document ⟨List.replicate 1601 'a', []⟩).get ⟨2, hi⟩ =
        ⟨((List.replicate 1601 'a').drop 1600).take 1000,
         mset [] "chunk_index" (.n (Int.ofNat 2))⟩ := by
  have h := (C4_chunk_windows ⟨List.replicate 1601 'a', []⟩).2.1 (by simp)
  exact ⟨by simpa using h.1, fun hi => by simpa using h.2 2 hi⟩

/-! ### The embedder -/

theorem embedVec_c (h : List Char → Fin dim) (t : List Char) :
    (embedVec h t).c = counts h t := rfl

theorem embedVec_of_tokenize_nil (h : List Char → Fin dim) (t : List Char)
    (ht : tokenize t = []) : embedVec h t = ⟨List.replicate dim 0, 1⟩ := by
  have hc := counts_of_tokenize_nil h t ht
  simp [embedVec, hc, normSq_replicate_zero]

theorem embedVec_d_of_tokens (h : List Char → Fin dim) (t : List Char)
    (ht : tokenize t ≠ []) : (embedVec h t).d = normSq (counts h t) := by
  simp [embedVec, if_pos (normSq_counts_pos h t ht)]

theorem embedVec_d_pos (h : List Char → Fin dim) (t : List Char) : 0 < (embedVec h t).d := by
  by_cases ht : tokenize t = []
  · simp [embedVec_of_tokenize_nil h t ht]
  · rw [embedVec_d_of_tokens h t ht]
    exact normSq_counts_pos h t ht

/-- Claim C5 (amended): the embedder is total on strings; it always returns
a vector of dimension 384; a text whose lowercased content has no
`\w+` token (among them the empty string) yields the unnormalized
384-dimensional zero vector; and a text with at least one token yields a
vector of exact unit L2 norm (in the `Vec c d ≈ c / √d` encoding:
`normSq c = d`). -/
theorem C5_embedder_norm (h : List Char → Fin dim) (t : List Char) :
    (embedVec h t).c.length = dim ∧
    0 < (embedVec h t).d ∧
    (tokenize t = [] → embedVec h t = ⟨List.replicate dim 0, 1⟩) ∧
    (tokenize t ≠ [] → normSq (embedVec h t).c = (embedVec h t).d) := by
  refine ⟨?_, embedVec_d_pos h t, embedVec_of_tokenize_nil h t, fun ht => ?_⟩
  · rw [embedVec_c]
    exact counts_length h t
  · rw [embedVec_c, embedVec_d_of_tokens h t ht]

/-- Claim C5 counterexample: `"!"` is a non-empty string, yet its embedding
is the zero vector (its squared norm is `0`, not `1`), because the text
has no word token. -/
theorem C5_counterexample :
    "!".data ≠ [] ∧
    embedVec hABC "!".data = ⟨List.replicate dim 0, 1⟩ ∧
    normSq (embedVec hABC "!".data).c = 0 := by
  refine ⟨by decide, embedVec_of_tokenize_nil hABC "!".data (by decide), ?_⟩
  rw [embedVec_c, counts_of_tokenize_nil hABC "!".data (by decide)]
  exact normSq_replicate_zero dim

/-- Witness for `C5_embedder_norm`: a text with tokens has a unit-norm
embedding, a tokenless one maps to zero. -/
theorem C5_embedder_norm_witness :
    (tokenize "PM2 5".data ≠ [] ∧
      normSq (embedVec hABC "PM2 5".data).c = (embedVec hABC "PM2 5".data).d) ∧
    (tokenize " .. ".data = [] ∧ embedVec hABC " .. ".data = ⟨List.replicate dim 0, 1⟩) :=
  ⟨⟨by decide, (C5_embedder_norm hABC "PM2 5".data).2.2.2 (by decide)⟩,
   ⟨by decide, (C5_embedder_norm hABC " .. ".data).2.2.1 (by decide)⟩⟩

/-! ### add_documents: state on failure -/

theorem add_documents_error_state (h : List Char → Fin dim) (rand : ℕ → Vec)
    (fail : Option AddFail) (s : Store) (docs : List Doc)
    (hf : (add_documents h rand fail s docs).2 ≠ none) :
    (add_documents h rand fail s docs).1 = s ∨
    (add_documents h rand fail s docs).1 = { s with index := some [] } := by
  by_cases h1 : fail = some .embed
  · left; simp [add_documents, h1]
  · by_cases h2 : batchTexts docs = []
    · left; simp [add_documents, h1, h2]
    · cases hidx : s.index with
      | none => left; simp [add_documents, h1, h2, hidx]
      | some vecs =>
        by_cases h3 : vecs.length = 0
        · by_cases h4 : fail = some .append
          · left; simp [add_documents, h1, h2, hidx, h3, h4]
          · exfalso
            apply hf
            simp [add_documents, h1, h2, hidx, h3, h4]
        · by_cases h4 : fail = some .append
          · right; simp [add_documents, h1, h2, hidx, h3, h4]
          · exfalso
            apply hf
            simp [add_documents, h1, h2, hidx, h3, h4]

/-- Claim C2 (amended): when `add_documents` fails, the already-indexed
texts and metadata keep their prior values and nothing from the failed
batch is persisted; a failure at the embedding step, or any failure while
the index is still empty, leaves the whole prior state intact; but a
failure of the index append during the rebuild path (store already
non-empty) leaves the index freshly emptied while `documents` and
`metadata` keep their old entries, breaking the
`ntotal = len(documents) = len(metadata)` invariant. -/
theorem C2_add_failure_states (h : List Char → Fin dim) (rand : ℕ → Vec)
    (s : Store) (docs : List Doc) :
    (add_documents h rand (some .embed) s docs = (s, some (.injected .embed))) ∧
    (s.index = some [] → (add_documents h rand (some .append) s docs).1 = s) ∧
    (∀ vecs, s.index = some vecs → vecs ≠ [] → batchTexts docs ≠ [] →
      add_documents h rand (some .append) s docs =
        ({ s with index := some [] }, some (.injected .append))) ∧
    (∀ fail, (add_documents h rand fail s docs).2 ≠ none →
      (add_documents h rand fail s docs).1.documents = s.documents ∧
      (add_documents h rand fail s docs).1.metadata = s.metadata) := by
  refine ⟨by simp [add_documents], fun hidx => ?_, fun vecs hidx hne htx => ?_, fun fail hf => ?_⟩
  · by_cases h2 : batchTexts docs = []
    · simp [add_documents, h2]
    · simp [add_documents, h2, hidx]
  · have h3 : ¬ vecs.length = 0 := by simpa [List.length_eq_zero] using hne
    simp [add_documents, htx, hidx, h3]
  · rcases add_documents_error_state h rand fail s docs hf with heq | heq <;> rw [heq] <;>
      exact ⟨rfl, rfl⟩

/-- Claim C2 counterexample: on a store holding one indexed entry, a failure
of the index append inside the rebuild path empties the index (the
assignment `self.index = faiss.IndexFlatIP(...)` has already executed)
while the one stored text survives, so the prior state is not intact and
`ntotal = len(documents)` is violated. -/
theorem C2_counterexample :
    (add_documents hABC rand0 (some .append) storeA [docB] =
      ({ storeA with index := some [] }, some (.injected .append))) ∧
    storeA.index = some [embedVec hABC "a".data] ∧
    storeA.documents.length = 1 ∧
    ((add_documents hABC rand0 (some .append) storeA [docB]).1.index.getD []).length ≠
      (add_documents hABC rand0 (some .append) storeA [docB]).1.documents.length := by
  refine ⟨by decide, by decide, by decide, by decide⟩

/-- Witness for `C2_add_failure_states`: an embed-step failure on a
concrete populated store leaves it untouched. -/
theorem C2_add_failure_states_witness :
    add_documents hABC rand0 (some .embed) storeA [docB] =
      (storeA, some (.injected .embed)) ∧
    (add_documents hABC rand0 (some .append) (initStore hABC none) [docB]).1 =
      initStore hABC none :=
  ⟨(C2_add_failure_states hABC rand0 storeA [docB]).1,
   (C2_add_failure_states hABC rand0 (initStore hABC none) [docB]).2.1 rfl⟩

/-- Claim C1: evaluating `add_documents` at the failing input.  After
indexing `'a'` and then adding `'b'`, the prior entry's text and metadata
survive in order, but its indexed vector is no longer the deterministic
embedding of `'a'`: the rebuild stored the `np.random.rand` row (here the
all-zero draw) in its place, contradicting the claim (and the docstring
of `_get_existing_embeddings`). -/
theorem C1_prior_vector_replaced :
    storeA.index = some [embedVec hABC "a".data] ∧
    storeAB.documents = ["a".data, "b".data] ∧
    storeAB.metadata = [[], []] ∧
    storeAB.index = some [⟨List.replicate dim 0, 1⟩, embedVec hABC "b".data] ∧
    (storeAB.index.getD []).head? ≠ some (embedVec hABC "a".data) := by
  refine ⟨by decide, by decide, by decide, by decide, by decide⟩

/-! ### Uninitialized-store behavior -/

theorem add_documents_uninit (h : List Char → Fin dim) (rand : ℕ → Vec)
    (fail : Option AddFail) (s : Store) (docs : List Doc) (hs : s.index = none) :
    (add_documents h rand fail s docs).1 = s ∧
    (add_documents h rand fail s docs).2 ≠ none := by
  by_cases h1 : fail = some .embed
  · simp [add_documents, h1]
  · by_cases h2 : batchTexts docs = []
    · simp [add_documents, h1, h2]
    · simp [add_documents, h1, h2, hs]

/-- Claim C6 (amended): `similarity_search` does not fail fast: called
while the store is Uninitialized (`index is None`) it returns `[]`
normally, no exception is raised even inside the `try` body.
`add_documents` while Uninitialized does raise (embedding and chunking
run first, then `self.index.ntotal` hits `None`) and leaves the state
unchanged.  A query vector of mismatched dimension cannot reach the
index: the query is embedded internally and the embedder always produces
the store's fixed dimension 384. -/
theorem C6_uninitialized (h : List Char → Fin dim) (s : Store) (hs : s.index = none) :
    (∀ q k filt, searchBody h s q k filt = .ok [] ∧ similarity_search h s q k filt = []) ∧
    (∀ rand fail docs, (add_documents h rand fail s docs).1 = s ∧
      (add_documents h rand fail s docs).2 ≠ none) ∧
    (∀ q, (embedVec h q).c.length = dim) := by
  refine ⟨fun q k filt => ?_, fun rand fail docs => add_documents_uninit h rand fail s docs hs,
    fun q => by rw [embedVec_c]; exact counts_length h q⟩
  constructor
  · simp [searchBody, hs]
  · simp [similarity_search, searchBody, hs]

/-- Claim C6 counterexample: searching a store that was never initialized
(`index is None`) returns the empty list normally - the body takes the
`return []` path and nothing is raised - rather than failing fast. -/
theorem C6_counterexample :
    searchBody hABC ⟨none, [], []⟩ "x".data 5 none = .ok [] ∧
    similarity_search hABC ⟨none, [], []⟩ "x".data 5 none = [] :=
  ⟨rfl, rfl⟩

/-- Witness for `C6_uninitialized` on the concrete uninitialized store. -/
theorem C6_uninitialized_witness :
    similarity_search hABC ⟨none, [], []⟩ "pm25".data 3 none = [] ∧
    (add_documents hABC rand0 none ⟨none, [], []⟩ [docA]).1 = ⟨none, [], []⟩ :=
  ⟨((C6_uninitialized hABC ⟨none, [], []⟩ rfl).1 "pm25".data 3 none).2,
   ((C6_uninitialized hABC ⟨none, [], []⟩ rfl).2.1 rand0 none [docA]).1⟩

/-- Claim C10: `similarity_search` never propagates an exception: whenever
the body raises, the wrapper returns `[]`; before `initialize` (index
`None`) the body itself returns `[]` without raising; and for every
positive `k` the body cannot raise at all (the only modelled raise is the
`assert k > 0` of the FAISS wrapper, reachable only with `k = 0` on a
populated index). -/
theorem C10_search_never_raises (h : List Char → Fin dim) (s : Store) (q : List Char)
    (k : ℕ) (filt : Option Metadata) :
    (∀ e, searchBody h s q k filt = .error e → similarity_search h s q k filt = []) ∧
    (s.index = none → searchBody h s q k filt = .ok [] ∧ similarity_search h s q k filt = []) ∧
    (0 < k → ∃ r, searchBody h s q k filt = .ok r ∧ similarity_search h s q k filt = r) := by
  refine ⟨fun e he => by simp [similarity_search, he], fun hs => ?_, fun hk => ?_⟩
  · constructor
    · simp [searchBody, hs]
    · simp [similarity_search, searchBody, hs]
  · cases hidx : s.index with
    | none =>
      exact ⟨[], by simp [searchBody, hidx], by simp [similarity_search, searchBody, hidx]⟩
    | some vecs =>
      by_cases h0 : vecs.length = 0
      · exact ⟨[], by simp [searchBody, hidx, h0], by simp [similarity_search, searchBody, hidx, h0]⟩
      · have hmin : ¬ min k vecs.length = 0 := by
          simp only [Nat.min_eq_zero_iff]
          omega
        refine ⟨(applyTruthyFilter filt (formattedResults s
          ((List.insertionSort rankRel (scoredList (embedVec h q) vecs)).take
            (min k vecs.length)))).take k, ?_, ?_⟩
        · simp [searchBody, hidx, h0, faissSearch, hmin]
        · simp [similarity_search, searchBody, hidx, h0, faissSearch, hmin]

/-- Witness for `C10_search_never_raises`: with `k = 0` on a populated
store the body raises (FAISS `assert k > 0`) and the wrapper swallows it
into `[]`; on an uninitialized store the body returns `[]` directly. -/
theorem C10_search_never_raises_witness :
    similarity_search hABC storeA "a".data 0 none = [] ∧
    searchBody hABC ⟨none, [], []⟩ "a".data 7 (some [("source", .s "A")]) = .ok [] :=
  ⟨(C10_search_never_raises hABC storeA "a".data 0 none).1 () rfl,
   ((C10_search_never_raises hABC ⟨none, [], []⟩ "a".data 7 (some [("source", .s "A")])).2.1
     rfl).1⟩

/-! ### Persistence -/

/-- Claim C8 (amended): for every store whose indexed rows are exactly the
embeddings of its stored texts (in particular any store populated by a
single `add_documents` batch, and any store just rebuilt by a load),
`save` followed by a fresh `initialize`-with-load reproduces the store
state exactly, hence `similarity_search` returns identical results (same
texts, same order, same scores) for every query, `k` and filter.  The
restriction is forced: after a second `add_documents` call the indexed
rows are `np.random.rand` draws, not the embeddings, and the round-trip
changes search scores (`C8_counterexample`). -/
theorem C8_save_load_roundtrip (h : List Char → Fin dim) (s : Store)
    (hfaith : s.index = some (s.documents.map (embedVec h))) :
    initStore h (some (save_data s)) = s ∧
    ∀ q k filt, similarity_search h (initStore h (some (save_data s))) q k filt =
      similarity_search h s q k filt := by
  have hst : initStore h (some (save_data s)) = s := by
    obtain ⟨idx, d, m⟩ := s
    simp only at hfaith
    subst hfaith
    unfold initStore load_existing_data save_data
    by_cases hd : d = []
    · subst hd; simp
    · simp [hd]
  exact ⟨hst, fun q k filt => by rw [hst]⟩

/-- Claim C8 counterexample: `storeAB` (two successive `add_documents`
batches, so its first indexed row is a random draw, not the embedding of
`'a'`) searched for `'a'` returns the same texts in the same order after
a save/load round-trip, but the scores differ: the first result scores
`0/√1` before and `1/√1` after the reload. -/
theorem C8_counterexample :
    ((similarity_search hABC storeAB "a".data 5 none).map (fun r => r.content) =
      (similarity_search hABC (initStore hABC (some (save_data storeAB))) "a".data 5
        none).map (fun r => r.content)) ∧
    ((similarity_search hABC storeAB "a".data 5 none).map (fun r => r.score) ≠
      (similarity_search hABC (initStore hABC (some (save_data storeAB))) "a".data 5
        none).map (fun r => r.score)) ∧
    Score.valEqB
      (((similarity_search hABC storeAB "a".data 5 none).map (fun r => r.score)).getD 0 ⟨0, 1⟩)
      (((similarity_search hABC (initStore hABC (some (save_data storeAB))) "a".data 5
        none).map (fun r => r.score)).getD 0 ⟨0, 1⟩) = false := by
  refine ⟨by decide, by decide, by decide⟩

/-- Witness for `C8_save_load_roundtrip` on the single-batch store. -/
theorem C8_save_load_roundtrip_witness :
    initStore hABC (some (save_data storeA)) = storeA ∧
    similarity_search hABC (initStore hABC (some (save_data storeA))) "a".data 3 none =
      similarity_search hABC storeA "a".data 3 none :=
  ⟨(C8_save_load_roundtrip hABC storeA (by decide)).1,
   (C8_save_load_roundtrip hABC storeA (by decide)).2 "a".data 3 none⟩

/-! ### The search pipeline -/

theorem matches_filter_iff (m f : Metadata) :
    matches_filter m f = true ↔ ∀ kv ∈ f, mlookup m kv.1 = some kv.2 := by
  simp [matches_filter, List.all_eq_true]

theorem applyTruthyFilter_none (l : List SearchResult) : applyTruthyFilter none l = l := rfl

theorem applyTruthyFilter_some (f : Metadata) (l : List SearchResult) :
    applyTruthyFilter (some f) l = l.filter (fun r => matches_filter r.metadata f) := by
  match f with
  | [] =>
    show l = _
    have : ∀ r : SearchResult, matches_filter r.metadata [] = true := fun r => rfl
    simp [this]
  | kv :: rest => rfl

theorem searchBody_some (h : List Char → Fin dim) (s : Store) (q : List Char) (k : ℕ)
    (filt : Option Metadata) (vecs : List Vec) (hidx : s.index = some vecs)
    (hne : ¬ vecs.length = 0) (hk : k ≠ 0) :
    searchBody h s q k filt = .ok ((applyTruthyFilter filt (formattedResults s
      ((List.insertionSort rankRel (scoredList (embedVec h q) vecs)).take
        (min k vecs.length)))).take k) := by
  have hmin : ¬ min k vecs.length = 0 := by omega
  simp [searchBody, hidx, hne, faissSearch, hmin]

theorem similarity_search_some (h : List Char → Fin dim) (s : Store) (q : List Char) (k : ℕ)
    (filt : Option Metadata) (vecs : List Vec) (hidx : s.index = some vecs)
    (hne : ¬ vecs.length = 0) (hk : k ≠ 0) :
    similarity_search h s q k filt = (applyTruthyFilter filt (formattedResults s
      ((List.insertionSort rankRel (scoredList (embedVec h q) vecs)).take
        (min k vecs.length)))).take k := by
  simp [similarity_search, searchBody_some h s q k filt vecs hidx hne hk]

theorem formattedResults_length_le (s : Store) (top : List (ℕ × Score)) :
    (formattedResults s top).length ≤ top.length :=
  List.length_filterMap_le _ _

theorem similarity_search_length_le (h : List Char → Fin dim) (s : Store) (q : List Char)
    (k : ℕ) (filt : Option Metadata) : (similarity_search h s q k filt).length ≤ k := by
  cases hidx : s.index with
  | none => simp [similarity_search, searchBody, hidx]
  | some vecs =>
    by_cases h0 : vecs.length = 0
    · simp [similarity_search, searchBody, hidx, h0]
    · by_cases hk : k = 0
      · subst hk
        simp [similarity_search, searchBody, hidx, h0, faissSearch]
      · rw [similarity_search_some h s q k filt vecs hidx h0 hk]
        exact List.length_take_le _ _

/-- The filtered search equals the unfiltered search with the filter
applied afterwards (the code ranks over the whole index first and filters
only the returned candidates). -/
theorem search_filter_eq (h : List Char → Fin dim) (s : Store) (q : List Char) (k : ℕ)
    (f : Metadata) :
    similarity_search h s q k (some f) =
      (similarity_search h s q k none).filter (fun r => matches_filter r.metadata f) := by
  cases hidx : s.index with
  | none => simp [similarity_search, searchBody, hidx]
  | some vecs =>
    by_cases h0 : vecs.length = 0
    · simp [similarity_search, searchBody, hidx, h0]
    · by_cases hk : k = 0
      · subst hk
        simp [similarity_search, searchBody, hidx, h0, faissSearch]
      · rw [similarity_search_some h s q k (some f) vecs hidx h0 hk,
            similarity_search_some h s q k none vecs hidx h0 hk,
            applyTruthyFilter_none, applyTruthyFilter_some]
        set F := formattedResults s
          ((List.insertionSort rankRel (scoredList (embedVec h q) vecs)).take
            (min k vecs.length)) with hF
        have hFlen : F.length ≤ k := by
          calc F.length ≤ _ := formattedResults_length_le s _
          _ ≤ min k vecs.length := List.length_take_le _ _
          _ ≤ k := Nat.min_le_left _ _
        rw [List.take_of_length_le hFlen,
            List.take_of_length_le (le_trans (List.length_filter_le _ F) hFlen)]

/-- Claim C7: with a filter dict, the returned results are exactly the
unfiltered results restricted to candidates whose metadata carries every
filter key with an exactly equal value - so every returned result
satisfies every filter pair, a candidate with a missing or unequal key is
never returned, and with `filter_metadata` equal to `None` no candidate
is excluded by filtering. -/
theorem C7_filter_exact_match (h : List Char → Fin dim) (s : Store) (q : List Char) (k : ℕ)
    (f : Metadata) :
    similarity_search h s q k (some f) =
      (similarity_search h s q k none).filter (fun r => matches_filter r.metadata f) ∧
    ∀ r ∈ similarity_search h s q k (some f), ∀ kv ∈ f,
      mlookup r.metadata kv.1 = some kv.2 := by
  refine ⟨search_filter_eq h s q k f, fun r hr kv hkv => ?_⟩
  rw [search_filter_eq h s q k f] at hr
  have := (List.mem_filter.mp hr).2
  exact (matches_filter_iff r.metadata f).mp (by simpa using this) kv hkv

/-- Witness for `C7_filter_exact_match`: on `store3`, filtering on
`source = A` returns a result, and its metadata indeed carries
`source = A`. -/
theorem C7_filter_exact_match_witness :
    mlookup ((similarity_search hABC store3 "z".data 2 (some fA)).getD 0
      ⟨[], ⟨0, 1⟩, []⟩).metadata "source" = some (.s "A") := by
  have hmem : ((similarity_search hABC store3 "z".data 2 (some fA)).getD 0
      ⟨[], ⟨0, 1⟩, []⟩) ∈ similarity_search hABC store3 "z".data 2 (some fA) := by decide
  exact (C7_filter_exact_match hABC store3 "z".data 2 fA).2 _ hmem ("source", .s "A")
    (by decide)

/-- Claim C9: the metadata filter is applied only to the
`min(k, total_entries)` candidates that rank highest over the whole
unfiltered index, and consequently a store can hold at least `k` entries
matching the filter yet return fewer than `k` results: in `store3`,
exactly one entry matches `source = A` (so at least `k = 1` do), but the
only top-1 candidate for the query `'q'` is the non-matching exact-text
entry, so the call returns no results at all. -/
theorem C9_filter_after_ranking :
    (∀ (h : List Char → Fin dim) (s : Store) (q : List Char) (k : ℕ) (f : Metadata),
      similarity_search h s q k (some f) =
        ((similarity_search h s q k none).filter
          (fun r => matches_filter r.metadata f)).take k) ∧
    (store3.metadata.filter (fun m => matches_filter m fA)).length = 1 ∧
    (similarity_search hABC store3 "q".data 1 none).map (fun r => r.metadata) =
      [[("source", .s "B")]] ∧
    (similarity_search hABC store3 "q".data 1 (some fA)).length = 0 := by
  refine ⟨fun h s q k f => ?_, by decide, by decide, by decide⟩
  rw [search_filter_eq h s q k f]
  rw [List.take_of_length_le
    (le_trans (List.length_filter_le _ _) (similarity_search_length_le h s q k none))]

/-- Witness for `C9_filter_after_ranking` at the concrete store and
filter. -/
theorem C9_filter_after_ranking_witness :
    similarity_search hABC store3 "q".data 1 (some fA) =
      ((similarity_search hABC store3 "q".data 1 none).filter
        (fun r => matches_filter r.metadata fA)).take 1 :=
  (C9_filter_after_ranking).1 hABC store3 "q".data 1 fA

/-! ### Exact-text queries rank top with score 1 -/

theorem formattedResults_eq_map (s : Store) (l : List (ℕ × Score))
    (hl : ∀ p ∈ l, p.1 < s.documents.length) :
    formattedResults s l = l.map (fmtResult s) := by
  induction l with
  | nil => rfl
  | cons p l ih =>
    have hp := hl p (List.mem_cons_self p l)
    have hrest := fun p hp => hl p (List.mem_cons_of_mem _ hp)
    simp only [formattedResults, List.filterMap_cons, if_pos hp, List.map_cons]
    exact congrArg _ (ih hrest)

theorem Score.leB_of_pos_target (s t : Score) (ht : 0 < t.a)
    (hsq : s.a ^ 2 * t.b ≤ t.a ^ 2 * s.b) : Score.leB s t = true := by
  unfold Score.leB
  by_cases hs : 0 ≤ s.a
  · simp [hs, le_of_lt ht, hsq]
  · simp [hs, le_of_lt ht]

/-- Claim C3 (amended): in a store whose indexed rows are the embeddings of
its texts, querying with the exact text of an indexed chunk whose text
has at least one word token, with `k` at least the number of entries,
returns that chunk with score exactly `1.0`, and its score is maximal
among all returned results.  (Both restrictions are forced by the code:
a tokenless chunk scores `0` against itself - `C3_counterexample` - and
with `k` smaller than the number of entries, score-`1.0` ties from other
texts with a proportional token histogram can crowd the chunk itself
out.) -/
theorem C3_exact_query_top (h : List Char → Fin dim) (s : Store) (k i : ℕ)
    (hfaith : s.index = some (s.documents.map (embedVec h)))
    (hi : i < s.documents.length)
    (htok : tokenize (s.documents.getD i []) ≠ [])
    (hk : s.documents.length ≤ k) :
    ∃ r ∈ similarity_search h s (s.documents.getD i []) k none,
      r.content = s.documents.getD i [] ∧ r.score.isOneB = true ∧
      ∀ r2 ∈ similarity_search h s (s.documents.getD i []) k none,
        Score.leB r2.score r.score = true := by
  set q := s.documents.getD i [] with hq
  set vecs := s.documents.map (embedVec h) with hvecs
  have hlen : vecs.length = s.documents.length := List.length_map _ _
  have hne : ¬ vecs.length = 0 := by omega
  have hk0 : k ≠ 0 := by omega
  have hmin : min k vecs.length = vecs.length := by omega
  set sorted := List.insertionSort rankRel (scoredList (embedVec h q) vecs) with hsorted
  have hsortlen : sorted.length = vecs.length := by
    rw [hsorted, List.length_insertionSort]
    simp [scoredList]
  have htake : sorted.take (min k vecs.length) = sorted := by
    rw [hmin]
    exact List.take_of_length_le (by omega)
  have hmem : ∀ p ∈ sorted, p.1 < s.documents.length ∧
      p.2 = scoreOf (embedVec h q) (vecs.getD p.1 ⟨[], 1⟩) := by
    intro p hp
    rw [hsorted, List.mem_insertionSort] at hp
    obtain ⟨j, hj, rfl⟩ := List.mem_map.mp hp
    rw [List.mem_range] at hj
    exact ⟨by omega, rfl⟩
  have hgetD : ∀ j, j < s.documents.length →
      vecs.getD j ⟨[], 1⟩ = embedVec h (s.documents.getD j []) := by
    intro j hj
    rw [hvecs, List.getD_eq_getElem _ _ (by rw [List.length_map]; omega), List.getElem_map]
    congr 1
    rw [List.getD_eq_getElem _ _ hj]
  have hres : similarity_search h s q k none = sorted.map (fmtResult s) := by
    rw [similarity_search_some h s q k none vecs hfaith hne hk0, applyTruthyFilter_none,
      htake, formattedResults_eq_map s sorted (fun p hp => (hmem p hp).1),
      List.take_of_length_le (by rw [List.length_map]; omega)]
  set N := normSq (counts h q) with hN
  have hNpos : 0 < N := normSq_counts_pos h q htok
  have hqd : (embedVec h q).d = N := embedVec_d_of_tokens h q htok
  have hselfscore : scoreOf (embedVec h q) (embedVec h q) = ⟨N, N * N⟩ := by
    rw [scoreOf, embedVec_c, dotZ_self, hqd, hN]
  have hself_mem : ((i, (⟨N, N * N⟩ : Score)) : ℕ × Score) ∈ sorted := by
    rw [hsorted, List.mem_insertionSort]
    apply List.mem_map.mpr
    refine ⟨i, List.mem_range.mpr (by omega), ?_⟩
    rw [hgetD i hi, ← hq, hselfscore]
  refine ⟨fmtResult s (i, ⟨N, N * N⟩), ?_, ?_, ?_, ?_⟩
  · rw [hres]
    exact List.mem_map.mpr ⟨_, hself_mem, rfl⟩
  · rw [fmtResult, ← hq]
  · simp only [fmtResult, Score.isOneB, Bool.and_eq_true, decide_eq_true_eq]
    constructor
    · exact_mod_cast hNpos
    · ring
  · intro r2 hr2
    rw [hres] at hr2
    obtain ⟨p2, hp2, rfl⟩ := List.mem_map.mp hr2
    obtain ⟨hp2lt, hp2sc⟩ := hmem p2 hp2
    have ht2 := hgetD p2.1 hp2lt
    set t2 := s.documents.getD p2.1 [] with hT2
    have hscore2 : (fmtResult s p2).score = scoreOf (embedVec h q) (embedVec h t2) := by
      rw [ht2] at hp2sc
      exact hp2sc
    rw [hscore2]
    have hkey : dotZ (counts h q) (counts h t2) ^ 2 ≤ N * (embedVec h t2).d := by
      by_cases htk2 : tokenize t2 = []
      · rw [counts_of_tokenize_nil h t2 htk2, dotZ_replicate_zero,
          embedVec_of_tokenize_nil h t2 htk2]
        simpa using le_of_lt hNpos
      · rw [embedVec_d_of_tokens h t2 htk2, hN]
        exact cauchy_schwarz_list (counts h q) (counts h t2)
    apply Score.leB_of_pos_target _ _ hNpos
    show dotZ (embedVec h q).c (embedVec h t2).c ^ 2 * (N * N) ≤
      N ^ 2 * ((embedVec h q).d * (embedVec h t2).d)
    rw [embedVec_c, embedVec_c, hqd]
    nlinarith [mul_le_mul_of_nonneg_right hkey (sq_nonneg N)]

/-- Claim C3 counterexample: in the store holding the single indexed chunk
`'!'`, querying with the identical text `'!'` does return that chunk as
the (maximal) result, but its score is `0/√1 = 0`, not `1.0`: the text
has no word token, so both embeddings are the zero vector. -/
theorem C3_counterexample :
    similarity_search hABC storeBang "!".data 5 none =
      [⟨"!".data, ⟨0, 1⟩, []⟩] ∧
    Score.isOneB ⟨0, 1⟩ = false := by
  refine ⟨by decide, by decide⟩

/-- Witness for `C3_exact_query_top` on `store3` and its first entry. -/
theorem C3_exact_query_top_witness :
    ∃ r ∈ similarity_search hABC store3 (store3.documents.getD 0 []) 2 none,
      r.content = store3.documents.getD 0 [] ∧ r.score.isOneB = true ∧
      ∀ r2 ∈ similarity_search hABC store3 (store3.documents.getD 0 []) 2 none,
        Score.leB r2.score r.score = true :=
  C3_exact_query_top hABC store3 2 0 (by decide) (by decide) (by decide) (by decide)
